import Mathlib

/-!
Shallow embedding of the core rules engine of a falling-block puzzle game
(TypeScript sources: tetromino catalog, 7-bag randomizer, board collision,
movement / rotation / drop operations, line clearing, scoring and level
progression).  Rendering, audio, DOM event wiring, persistent storage and
piece spawning are I/O concerns outside this model; every definition below
is translated from the corresponding source function.  JavaScript numbers
holding integer coordinates are modelled as Int, array cells holding
`color-string | null` as `Option String`, and JavaScript array operations
(`splice`, `unshift`, `pop`, indexed read) by their Lean list counterparts.
-/

/-- The seven tetromino piece types (source: `type TetrominoType`). -/
inductive PieceType where
  | I | O | T | S | Z | J | L
deriving DecidableEq, Repr, Inhabited

/-- A shape matrix: 1 represents a filled cell, 0 is empty
(source: `number[][]`). -/
abbrev Shape := List (List Nat)

/-- The four precomputed shape matrices per piece type, in rotation order
0, 90, 180, 270 degrees (source: `TETROMINOES[type].shapes`). -/
def shapesOf : PieceType → List Shape
  | .I => [ [[0, 0, 0, 0], [1, 1, 1, 1], [0, 0, 0, 0], [0, 0, 0, 0]],
            [[0, 0, 1, 0], [0, 0, 1, 0], [0, 0, 1, 0], [0, 0, 1, 0]],
            [[0, 0, 0, 0], [0, 0, 0, 0], [1, 1, 1, 1], [0, 0, 0, 0]],
            [[0, 1, 0, 0], [0, 1, 0, 0], [0, 1, 0, 0], [0, 1, 0, 0]] ]
  | .O => [ [[1, 1], [1, 1]],
            [[1, 1], [1, 1]],
            [[1, 1], [1, 1]],
            [[1, 1], [1, 1]] ]
  | .T => [ [[0, 1, 0], [1, 1, 1], [0, 0, 0]],
            [[0, 1, 0], [0, 1, 1], [0, 1, 0]],
            [[0, 0, 0], [1, 1, 1], [0, 1, 0]],
            [[0, 1, 0], [1, 1, 0], [0, 1, 0]] ]
  | .S => [ [[0, 1, 1], [1, 1, 0], [0, 0, 0]],
            [[0, 1, 0], [0, 1, 1], [0, 0, 1]],
            [[0, 0, 0], [0, 1, 1], [1, 1, 0]],
            [[1, 0, 0], [1, 1, 0], [0, 1, 0]] ]
  | .Z => [ [[1, 1, 0], [0, 1, 1], [0, 0, 0]],
            [[0, 0, 1], [0, 1, 1], [0, 1, 0]],
            [[0, 0, 0], [1, 1, 0], [0, 1, 1]],
            [[0, 1, 0], [1, 1, 0], [1, 0, 0]] ]
  | .J => [ [[1, 0, 0], [1, 1, 1], [0, 0, 0]],
            [[0, 1, 1], [0, 1, 0], [0, 1, 0]],
            [[0, 0, 0], [1, 1, 1], [0, 0, 1]],
            [[0, 1, 0], [0, 1, 0], [1, 1, 0]] ]
  | .L => [ [[0, 0, 1], [1, 1, 1], [0, 0, 0]],
            [[0, 1, 0], [0, 1, 0], [0, 1, 1]],
            [[0, 0, 0], [1, 1, 1], [1, 0, 0]],
            [[1, 1, 0], [0, 1, 0], [0, 1, 0]] ]

/-- Display color of a piece type (source: `TETROMINOES[type].color`);
the board stores these strings in locked cells, their content is opaque
to the rules engine. -/
def colorOf : PieceType → String
  | .I => "#00E5FF"
  | .O => "#FFEB3B"
  | .T => "#BA68C8"
  | .S => "#66BB6A"
  | .Z => "#FF5252"
  | .J => "#42A5F5"
  | .L => "#FFA726"

/-- Source `getRotatedShape(type, rotation)`, with `rotation: number`
modelled as Int.  JavaScript `%` truncates toward zero (`Int.tmod`), and a
JavaScript array read at a negative or out-of-range index yields
`undefined`, modelled as `none`. -/
def getRotatedShape (t : PieceType) (rotation : Int) : Option Shape :=
  let i := Int.tmod rotation 4
  if i < 0 then none else (shapesOf t).get? i.toNat

/-- Total variant of the shape lookup for the natural-number rotations the
game actually stores (the rotation field is always in 0..3); agrees with
`getRotatedShape` on nonnegative rotations (see `getRotatedShape_ofNat`). -/
def shapeAt (t : PieceType) (r : Nat) : Shape :=
  (shapesOf t).getD (r % 4) []

/-- Board grid: ROWS lists of COLS cells, each `null` (empty) or a color
string (source: `(string | null)[][]`). -/
abbrev Board := List (List (Option String))

/-- Source constant `COLS = 10`. -/
def COLS : Nat := 10

/-- Source constant `ROWS = 20`. -/
def ROWS : Nat := 20

/-- Source `createEmptyBoard()`. -/
def createEmptyBoard : Board :=
  List.replicate ROWS (List.replicate COLS none)

/-- Read `board[y][x]` for coordinates already checked in range by the
caller (as in the source, where the read is guarded by bounds checks). -/
def boardCell (b : Board) (y x : Int) : Option String :=
  (b.getD y.toNat []).getD x.toNat none

/-- Source `TetrisGame.isValidPosition(type, x, y, rotation)`: every filled
cell of the rotated shape must be inside the horizontal bounds, above the
floor, and (when at a nonnegative row) over an empty board cell. -/
def isValidPosition (b : Board) (t : PieceType) (x y : Int) (rot : Nat) : Bool :=
  let shape := shapeAt t rot
  (List.range shape.length).all fun row =>
    (List.range (shape.getD row []).length).all fun col =>
      if (shape.getD row []).getD col 0 ≠ 0 then
        let boardX := x + col
        let boardY := y + row
        if boardX < 0 ∨ (COLS : Int) ≤ boardX ∨ (ROWS : Int) ≤ boardY then
          false
        else if 0 ≤ boardY ∧ (boardCell b boardY boardX).isSome then
          false
        else
          true
      else
        true

/-- The length of every shape table is 4. -/
theorem shapesOf_length (t : PieceType) : (shapesOf t).length = 4 := by
  cases t <;> rfl

/-- On a nonnegative rotation the partial JavaScript lookup succeeds and
agrees with the total lookup `shapeAt`. -/
theorem getRotatedShape_ofNat (t : PieceType) (n : Nat) :
    getRotatedShape t (n : Int) = some (shapeAt t n) := by
  unfold getRotatedShape shapeAt
  have htm : Int.tmod (n : Int) 4 = ((n % 4 : Nat) : Int) := by
    rw [Int.tmod_eq_emod (Int.ofNat_nonneg n) (by norm_num)]
    push_cast
    rfl
  have hlt : n % 4 < 4 := Nat.mod_lt _ (by norm_num)
  have hlen : n % 4 < (shapesOf t).length := by rw [shapesOf_length]; exact hlt
  simp only [htm]
  rw [if_neg (by exact_mod_cast Nat.not_lt.mpr (Nat.zero_le _))]
  rw [Int.toNat_ofNat]
  rw [List.get?_eq_getElem?, List.getElem?_eq_getElem hlen,
    List.getD_eq_getElem _ _ hlen]

/-- Characterization of the placement validity check: all-quantified
per-cell bounds and emptiness conditions (helper shared by later proofs). -/
theorem isValidPos_char (b : Board) (t : PieceType) (x y : Int) (rot : Nat) :
    isValidPosition b t x y rot = true ↔
      ∀ row col : Nat, row < (shapeAt t rot).length →
        col < ((shapeAt t rot).getD row []).length →
        ((shapeAt t rot).getD row []).getD col 0 ≠ 0 →
        (0 ≤ x + col ∧ x + col < (COLS : Int) ∧ y + row < (ROWS : Int) ∧
          (0 ≤ y + row → boardCell b (y + row) (x + col) = none)) := by
  unfold isValidPosition
  simp only [List.all_eq_true, List.mem_range]
  constructor
  · intro h row col hrow hcol hfill
    have hc := h row hrow col hcol
    rw [if_pos hfill] at hc
    by_cases h1 : x + (col : Int) < 0 ∨ (COLS : Int) ≤ x + col ∨ (ROWS : Int) ≤ y + row
    · rw [if_pos h1] at hc; exact absurd hc (by simp)
    · rw [if_neg h1] at hc
      push_neg at h1
      refine ⟨h1.1, h1.2.1, h1.2.2, ?_⟩
      intro hge
      by_cases h2 : 0 ≤ y + (row : Int) ∧ (boardCell b (y + row) (x + col)).isSome
      · rw [if_pos h2] at hc; exact absurd hc (by simp)
      · have hns : ¬ (boardCell b (y + row) (x + col)).isSome = true := fun hb => h2 ⟨hge, hb⟩
        exact Option.not_isSome_iff_eq_none.mp hns
  · intro h row hrow col hcol
    by_cases hfill : ((shapeAt t rot).getD row []).getD col 0 ≠ 0
    · obtain ⟨h1, h2, h3, h4⟩ := h row col hrow hcol hfill
      have hA : ¬ (x + (col : Int) < 0 ∨ (COLS : Int) ≤ x + col ∨ (ROWS : Int) ≤ y + row) := by
        push_neg; exact ⟨h1, h2, h3⟩
      have hB : ¬ (0 ≤ y + (row : Int) ∧ (boardCell b (y + row) (x + col)).isSome) := by
        rintro ⟨hge, hs⟩
        rw [h4 hge] at hs
        simp at hs
      rw [if_pos hfill, if_neg hA, if_neg hB]
    · rw [if_neg hfill]

/-- C2: isValidPlacement returns true if and only if every filled cell
(row, col) of the shape for (type, rotation) satisfies x+col in
[0, width), y+row < height, and, whenever y+row is nonnegative, the board
cell at (y+row, x+col) is empty; cells with y+row negative are accepted
regardless of any occupancy. -/
theorem valid_placement_iff (b : Board) (t : PieceType) (x y : Int) (rot : Nat) :
    isValidPosition b t x y rot = true ↔
      ∀ row col : Nat, row < (shapeAt t rot).length →
        col < ((shapeAt t rot).getD row []).length →
        ((shapeAt t rot).getD row []).getD col 0 ≠ 0 →
        (0 ≤ x + col ∧ x + col < (COLS : Int) ∧ y + row < (ROWS : Int) ∧
          (0 ≤ y + row → boardCell b (y + row) (x + col) = none)) :=
  isValidPos_char b t x y rot

/-- C9 counterexample: at rotation -1 the JavaScript remainder is -1, the
array read is out of range and the lookup yields undefined, so shapeOf is
not total on every rotation value. -/
theorem getRotatedShape_neg_rotation_fails :
    getRotatedShape PieceType.I (-1) = none := by decide

/-- C9 (amended): for every piece type and every nonnegative rotation
value, the lookup succeeds and returns the precomputed shape for rotation
taken mod 4. -/
theorem getRotatedShape_total_on_nonneg (t : PieceType) (r : Int) (h : 0 ≤ r) :
    getRotatedShape t r = some (shapeAt t r.toNat) := by
  have hr : ((r.toNat : Nat) : Int) = r := Int.toNat_of_nonneg h
  rw [← hr]
  exact getRotatedShape_ofNat t r.toNat

/-- C9 witness: the amended totality theorem evaluated at rotation 5. -/
theorem getRotatedShape_total_on_nonneg_witness :
    getRotatedShape PieceType.T 5 = some (shapeAt PieceType.T 5) :=
  getRotatedShape_total_on_nonneg PieceType.T 5 (by decide)

/-- Source `WALL_KICKS_JLSTZ` keyed by strings "from>to"; a key absent
from the table falls back to the single zero offset (the source appends
`|| [[0, 0]]` at the lookup site). -/
def wallKicksJLSTZ (fromR toR : Nat) : List (Int × Int) :=
  match fromR, toR with
  | 0, 1 => [(0, 0), (-1, 0), (-1, 1), (0, -2), (-1, -2)]
  | 1, 0 => [(0, 0), (1, 0), (1, -1), (0, 2), (1, 2)]
  | 1, 2 => [(0, 0), (1, 0), (1, -1), (0, 2), (1, 2)]
  | 2, 1 => [(0, 0), (-1, 0), (-1, 1), (0, -2), (-1, -2)]
  | 2, 3 => [(0, 0), (1, 0), (1, 1), (0, -2), (1, -2)]
  | 3, 2 => [(0, 0), (-1, 0), (-1, -1), (0, 2), (-1, 2)]
  | 3, 0 => [(0, 0), (-1, 0), (-1, -1), (0, 2), (-1, 2)]
  | 0, 3 => [(0, 0), (1, 0), (1, 1), (0, -2), (1, -2)]
  | _, _ => [(0, 0)]

/-- Source `WALL_KICKS_I`, same keying and fallback convention. -/
def wallKicksI (fromR toR : Nat) : List (Int × Int) :=
  match fromR, toR with
  | 0, 1 => [(0, 0), (-2, 0), (1, 0), (-2, -1), (1, 2)]
  | 1, 0 => [(0, 0), (2, 0), (-1, 0), (2, 1), (-1, -2)]
  | 1, 2 => [(0, 0), (-1, 0), (2, 0), (-1, 2), (2, -1)]
  | 2, 1 => [(0, 0), (1, 0), (-2, 0), (1, -2), (-2, 1)]
  | 2, 3 => [(0, 0), (2, 0), (-1, 0), (2, 1), (-1, -2)]
  | 3, 2 => [(0, 0), (-2, 0), (1, 0), (-2, -1), (1, 2)]
  | 3, 0 => [(0, 0), (1, 0), (-2, 0), (1, -2), (-2, 1)]
  | 0, 3 => [(0, 0), (-1, 0), (2, 0), (-1, 2), (2, -1)]
  | _, _ => [(0, 0)]

/-- Source `getWallKicks(type, fromRotation, toRotation)`: the I piece has
its own table, the O piece needs no wall kicks, all others share the
JLSTZ table. -/
def getWallKicks (t : PieceType) (fromR toR : Nat) : List (Int × Int) :=
  match t with
  | .I => wallKicksI fromR toR
  | .O => [(0, 0)]
  | _ => wallKicksJLSTZ fromR toR

/-- The active falling piece (source `interface ActivePiece`). -/
structure ActivePiece where
  type : PieceType
  x : Int
  y : Int
  rotation : Nat
deriving DecidableEq, Repr

/-- Source `TetrisGame.movePiece(dx, dy)`: commit the candidate position
when the board accepts it and report success, otherwise report failure
with the piece untouched.  The source mutates `this.currentPiece`; here
the updated piece is returned with the boolean. -/
def movePiece (b : Board) (p : ActivePiece) (dx dy : Int) : ActivePiece × Bool :=
  if isValidPosition b p.type (p.x + dx) (p.y + dy) p.rotation then
    (⟨p.type, p.x + dx, p.y + dy, p.rotation⟩, true)
  else
    (p, false)

/-- Source `TetrisGame.rotatePiece()`: target rotation is (r+1) mod 4, the
kick offsets are tried in list order with the vertical component negated,
and the first accepted candidate is committed; with no accepted candidate
the piece is left unchanged. -/
def rotatePiece (b : Board) (p : ActivePiece) : ActivePiece :=
  match (getWallKicks p.type p.rotation ((p.rotation + 1) % 4)).find?
      (fun k => isValidPosition b p.type (p.x + k.1) (p.y - k.2) ((p.rotation + 1) % 4)) with
  | some k => ⟨p.type, p.x + k.1, p.y - k.2, (p.rotation + 1) % 4⟩
  | none => p

/-- C7: move(dx, dy) either commits the candidate position (x+dx, y+dy)
and returns true when the board accepts it as a valid placement, or
returns false and leaves the piece position and rotation unchanged (the
board is not an output of the operation at all). -/
theorem move_commits_or_leaves_unchanged (b : Board) (p : ActivePiece) (dx dy : Int) :
    ((movePiece b p dx dy).2 = true →
        isValidPosition b p.type (p.x + dx) (p.y + dy) p.rotation = true ∧
        (movePiece b p dx dy).1 = ⟨p.type, p.x + dx, p.y + dy, p.rotation⟩) ∧
    ((movePiece b p dx dy).2 = false →
        isValidPosition b p.type (p.x + dx) (p.y + dy) p.rotation = false ∧
        (movePiece b p dx dy).1 = p) := by
  unfold movePiece
  by_cases h : isValidPosition b p.type (p.x + dx) (p.y + dy) p.rotation = true
  · rw [if_pos h]
    exact ⟨fun _ => ⟨h, rfl⟩, by simp⟩
  · rw [if_neg h]
    exact ⟨by simp, fun _ => ⟨Bool.not_eq_true _ ▸ Bool.of_not_eq_true h, rfl⟩⟩

/-- C7 witness: a concrete accepted move on the empty board. -/
theorem move_commits_or_leaves_unchanged_witness :
    (movePiece createEmptyBoard ⟨PieceType.T, 3, 0, 0⟩ 1 0).1 = ⟨PieceType.T, 3 + 1, 0 + 0, 0⟩ :=
  ((move_commits_or_leaves_unchanged createEmptyBoard ⟨PieceType.T, 3, 0, 0⟩ 1 0).1
    (by decide)).2

/-- Helper: List.find? returns the element at the first index where the
predicate holds. -/
theorem find?_eq_some_of_first {α : Type} (p : α → Bool) (l : List α) (i : Nat) (hi : i < l.length)
    (hbefore : ∀ j (hj : j < i), p (l.get ⟨j, Nat.lt_trans hj hi⟩) = false)
    (hp : p (l.get ⟨i, hi⟩) = true) :
    l.find? p = some (l.get ⟨i, hi⟩) := by
  induction l generalizing i with
  | nil => simp at hi
  | cons a as ih =>
    cases i with
    | zero =>
      simp only [List.get] at hp
      rw [List.find?_cons_of_pos _ hp]
      rfl
    | succ n =>
      have ha : p a = false := hbefore 0 (Nat.succ_pos n)
      rw [List.find?_cons_of_neg _ (by simp [ha])]
      exact ih n (Nat.lt_of_succ_lt_succ hi)
        (fun j hj => hbefore (j + 1) (Nat.succ_lt_succ hj)) hp

/-- C3: the rotate operation targets rotation (r+1) mod 4, walks the
ordered kick list for (type, r, target) and commits the first offset
(dx, dy) in list order whose placement at (x+dx, y-dy, target) is valid
(vertical component negated); if no candidate is valid the piece is left
unchanged. -/
theorem rotate_commits_first_valid_kick (b : Board) (p : ActivePiece) :
    ((∀ k ∈ getWallKicks p.type p.rotation ((p.rotation + 1) % 4),
        isValidPosition b p.type (p.x + k.1) (p.y - k.2) ((p.rotation + 1) % 4) = false) →
      rotatePiece b p = p) ∧
    (∀ i (hi : i < (getWallKicks p.type p.rotation ((p.rotation + 1) % 4)).length),
      (∀ j (hj : j < i),
        isValidPosition b p.type
          (p.x + ((getWallKicks p.type p.rotation ((p.rotation + 1) % 4)).get
            ⟨j, Nat.lt_trans hj hi⟩).1)
          (p.y - ((getWallKicks p.type p.rotation ((p.rotation + 1) % 4)).get
            ⟨j, Nat.lt_trans hj hi⟩).2)
          ((p.rotation + 1) % 4) = false) →
      isValidPosition b p.type
        (p.x + ((getWallKicks p.type p.rotation ((p.rotation + 1) % 4)).get ⟨i, hi⟩).1)
        (p.y - ((getWallKicks p.type p.rotation ((p.rotation + 1) % 4)).get ⟨i, hi⟩).2)
        ((p.rotation + 1) % 4) = true →
      rotatePiece b p =
        ⟨p.type,
         p.x + ((getWallKicks p.type p.rotation ((p.rotation + 1) % 4)).get ⟨i, hi⟩).1,
         p.y - ((getWallKicks p.type p.rotation ((p.rotation + 1) % 4)).get ⟨i, hi⟩).2,
         (p.rotation + 1) % 4⟩) := by
  constructor
  · intro hall
    unfold rotatePiece
    have hnone : (getWallKicks p.type p.rotation ((p.rotation + 1) % 4)).find?
        (fun k => isValidPosition b p.type (p.x + k.1) (p.y - k.2) ((p.rotation + 1) % 4))
        = none := by
      apply List.find?_eq_none.mpr
      intro k hk
      simp [hall k hk]
    rw [hnone]
  · intro i hi hbef hp
    unfold rotatePiece
    have hfind := find?_eq_some_of_first
      (fun k => isValidPosition b p.type (p.x + k.1) (p.y - k.2) ((p.rotation + 1) % 4))
      (getWallKicks p.type p.rotation ((p.rotation + 1) % 4)) i hi hbef hp
    rw [hfind]

/-- C3 witness: on the empty board a T piece at (3, 5) in rotation 0
rotates in place via the zero kick (the first candidate). -/
theorem rotate_commits_first_valid_kick_witness :
    rotatePiece createEmptyBoard ⟨PieceType.T, 3, 5, 0⟩ =
      ⟨PieceType.T, 3 + ((getWallKicks PieceType.T 0 1).get ⟨0, by decide⟩).1,
        5 - ((getWallKicks PieceType.T 0 1).get ⟨0, by decide⟩).2, 1⟩ :=
  (rotate_commits_first_valid_kick createEmptyBoard ⟨PieceType.T, 3, 5, 0⟩).2 0 (by decide)
    (fun j hj => absurd hj (Nat.not_lt_zero j)) (by decide)

/-- The fixed piece list both bag fills start from (source `fillBag` /
`fillNextBag`). -/
def pieces7 : List PieceType := [.I, .O, .T, .S, .Z, .J, .L]

/-- One JavaScript destructuring swap step of the Fisher-Yates loop:
`[a[i], a[j]] = [a[j], a[i]]` (both reads happen before both writes). -/
def swapJS {α : Type} [Inhabited α] (l : List α) (i j : Nat) : List α :=
  (l.set i (l.getD j default)).set j (l.getD i default)

/-- The shuffle loop of `shuffleArray`, running the index i from
`length - 1` down to 1; the random draw `Math.floor(Math.random()*(i+1))`
is modelled by the oracle `js i`, which the randomness contract keeps in
[0, i]. -/
def shuffleAux {α : Type} [Inhabited α] (js : Nat → Nat) : Nat → List α → List α
  | 0, l => l
  | i + 1, l => shuffleAux js i (swapJS l (i + 1) (js (i + 1)))

/-- Source `TetrominoBag.shuffleArray` with the stream of random index
draws made explicit. -/
def shuffleArray {α : Type} [Inhabited α] (js : Nat → Nat) (l : List α) : List α :=
  shuffleAux js (l.length - 1) l

/-- The two shuffled queues of the 7-bag randomizer (source
`TetrominoBag`: `bag` is the head queue, `nextBag` the lookahead). -/
structure Bag where
  bag : List PieceType
  nextBag : List PieceType
deriving DecidableEq, Repr

/-- Source `fillBag()` / `fillNextBag()`: a fresh shuffle of the 7 types. -/
def fillFresh (js : Nat → Nat) : List PieceType := shuffleArray js pieces7

/-- Source `reset()`: reinitialize both queues with fresh shuffles. -/
def bagReset (js1 js2 : Nat → Nat) : Bag := ⟨fillFresh js1, fillFresh js2⟩

/-- Source `next()`: when the head queue is empty, promote the lookahead
and generate a fresh lookahead, then pop from the end of the head queue
(JavaScript `Array.pop`); popping an empty array yields undefined,
modelled as `none`. -/
def bagNext (b : Bag) (js : Nat → Nat) : Option PieceType × Bag :=
  if b.bag.isEmpty then
    (b.nextBag.getLast?, ⟨b.nextBag.dropLast, fillFresh js⟩)
  else
    (b.bag.getLast?, ⟨b.bag.dropLast, b.nextBag⟩)

/-- Source `peek()`: read the element `next()` would pop, without any
mutation (this embedding of peek is a pure function of the bag, so it
cannot change either queue). -/
def bagPeek (b : Bag) : Option PieceType :=
  if b.bag.isEmpty then b.nextBag.getLast? else b.bag.getLast?

/-- n consecutive `next()` calls, collecting the drawn types; `jss k` is
the randomness oracle handed to the (k+1)-th call. -/
def bagDrawN (jss : Nat → Nat → Nat) : Nat → Bag → List PieceType × Bag
  | 0, b => ([], b)
  | n + 1, b =>
    let r := bagNext b (jss 0)
    let rest := bagDrawN (fun k => jss (k + 1)) n r.2
    ((match r.1 with | some t => [t] | none => []) ++ rest.1, rest.2)

/-- A JavaScript destructuring swap at two in-range indices permutes the
list. -/
theorem swapJS_perm {α : Type} [DecidableEq α] [Inhabited α] (l : List α) (i j : Nat)
    (hi : i < l.length) (hj : j < l.length) : (swapJS l i j).Perm l := by
  rw [List.perm_iff_count]
  intro a
  unfold swapJS
  have hgi : l.getD i default = l[i] := List.getD_eq_getElem l default hi
  have hgj : l.getD j default = l[j] := List.getD_eq_getElem l default hj
  rw [hgi, hgj]
  have hlen1 : j < (l.set i l[j]).length := by simpa using hj
  rw [List.count_set l[i] a (l.set i l[j]) j hlen1, List.count_set l[j] a l i hi]
  have hsj : (l.set i l[j])[j] = l[j] := by
    rw [List.getElem_set]
    split <;> rfl
  rw [hsj]
  have h1 : (l[i] == a) = true → 1 ≤ l.count a := by
    intro h
    exact List.count_pos_iff.mpr (eq_of_beq h ▸ List.getElem_mem hi)
  have h2 : (l[j] == a) = true → 1 ≤ l.count a := by
    intro h
    exact List.count_pos_iff.mpr (eq_of_beq h ▸ List.getElem_mem hj)
  by_cases e1 : (l[i] == a) = true <;> by_cases e2 : (l[j] == a) = true
  · have := h1 e1
    simp [e1, e2]
    omega
  · have := h1 e1
    simp [e1, e2]
    omega
  · have := h2 e2
    simp [e1, e2]
  · simp [e1, e2]

/-- Swapping preserves length. -/
theorem swapJS_length {α : Type} [Inhabited α] (l : List α) (i j : Nat) :
    (swapJS l i j).length = l.length := by
  simp [swapJS]

/-- The shuffle loop permutes the list whenever the random draws are in
range and the loop start index is in range. -/
theorem shuffleAux_perm {α : Type} [DecidableEq α] [Inhabited α] (js : Nat → Nat)
    (hjs : ∀ k, js k ≤ k) :
    ∀ (i : Nat) (l : List α), i < l.length → (shuffleAux js i l).Perm l := by
  intro i
  induction i with
  | zero => intro l _; exact List.Perm.refl l
  | succ n ih =>
    intro l hl
    have hjlt : js (n + 1) < l.length := Nat.lt_of_le_of_lt (hjs (n + 1)) hl
    have hswap := swapJS_perm l (n + 1) (js (n + 1)) hl hjlt
    have hlen : n < (swapJS l (n + 1) (js (n + 1))).length := by
      rw [swapJS_length]; omega
    exact (ih (swapJS l (n + 1) (js (n + 1))) hlen).trans hswap

/-- `shuffleArray` returns a permutation of its input when every random
draw at loop index i lies in [0, i], which `Math.floor(Math.random()*(i+1))`
guarantees. -/
theorem shuffleArray_perm {α : Type} [DecidableEq α] [Inhabited α] (js : Nat → Nat)
    (hjs : ∀ k, js k ≤ k) (l : List α) : (shuffleArray js l).Perm l := by
  cases l with
  | nil => exact List.Perm.refl _
  | cons a as =>
    exact shuffleAux_perm js hjs (a :: as).length.pred (a :: as) (by simp)

/-- Drawing exactly as many pieces as the head queue holds pops them all
in reverse order, never touching the lookahead. -/
theorem bagDraw_pop_all (n : Nat) :
    ∀ (jss : Nat → Nat → Nat) (l nb : List PieceType), l.length = n →
      (bagDrawN jss n ⟨l, nb⟩).1 = l.reverse := by
  induction n with
  | zero =>
    intro jss l nb hlen
    rw [List.length_eq_zero] at hlen
    subst hlen
    rfl
  | succ m ih =>
    intro jss l nb hlen
    rcases List.eq_nil_or_concat l with hnil | ⟨xs, x, hx⟩
    · subst hnil; simp at hlen
    · rw [List.concat_eq_append] at hx
      subst hx
      have hxs : xs.length = m := by simpa using hlen
      simp only [bagDrawN, bagNext]
      rw [if_neg (by simp)]
      have hlast : (xs ++ [x]).getLast? = some x := by simp
      have hdrop : (xs ++ [x]).dropLast = xs := by simp
      simp only [hlast, hdrop]
      rw [ih (fun k => jss (k + 1)) xs nb hxs]
      simp

/-- Drawing from a state whose head queue just became empty (a bag
boundary) first promotes the lookahead and then pops it down, yielding
the lookahead in reverse order. -/
theorem bagDraw_from_empty (m : Nat) (jss : Nat → Nat → Nat) (nb : List PieceType)
    (h : nb.length = m + 1) :
    (bagDrawN jss (m + 1) ⟨[], nb⟩).1 = nb.reverse := by
  rcases List.eq_nil_or_concat nb with hnil | ⟨xs, x, hx⟩
  · subst hnil; simp at h
  · rw [List.concat_eq_append] at hx
    subst hx
    have hxs : xs.length = m := by simpa using h
    simp only [bagDrawN, bagNext]
    rw [if_pos (by simp)]
    have hlast : (xs ++ [x]).getLast? = some x := by simp
    have hdrop : (xs ++ [x]).dropLast = xs := by simp
    simp only [hlast, hdrop]
    rw [bagDraw_pop_all m (fun k => jss (k + 1)) xs (fillFresh (jss 0)) hxs]
    simp

/-- C4: after a reset (and likewise from any bag boundary whose promoted
lookahead is a permutation of the 7 types), 7 consecutive draws return
each of the 7 piece types exactly once; refilling happens only when the
head queue empties, by promoting the lookahead queue and generating a
fresh shuffled lookahead. -/
theorem bag_seven_fair (js1 js2 : Nat → Nat) (jss : Nat → Nat → Nat)
    (h1 : ∀ k, js1 k ≤ k) :
    ((bagDrawN jss 7 (bagReset js1 js2)).1).Perm pieces7 ∧
    (∀ nb : List PieceType, nb.Perm pieces7 → ((bagDrawN jss 7 ⟨[], nb⟩).1).Perm pieces7) ∧
    (∀ (b : Bag) (js : Nat → Nat), b.bag ≠ [] →
      (bagNext b js).2 = ⟨b.bag.dropLast, b.nextBag⟩) ∧
    (∀ (b : Bag) (js : Nat → Nat), b.bag = [] →
      (bagNext b js).2 = ⟨b.nextBag.dropLast, fillFresh js⟩) := by
  refine ⟨?_, ?_, ?_, ?_⟩
  · have hperm : (fillFresh js1).Perm pieces7 := shuffleArray_perm js1 h1 pieces7
    have hlen : (fillFresh js1).length = 7 := by rw [hperm.length_eq]; rfl
    show ((bagDrawN jss 7 ⟨fillFresh js1, fillFresh js2⟩).1).Perm pieces7
    rw [bagDraw_pop_all 7 jss (fillFresh js1) (fillFresh js2) hlen]
    exact ((fillFresh js1).reverse_perm).trans hperm
  · intro nb hnb
    have hlen : nb.length = 7 := by rw [hnb.length_eq]; rfl
    rw [bagDraw_from_empty 6 jss nb hlen]
    exact nb.reverse_perm.trans hnb
  · intro b js hne
    unfold bagNext
    rw [if_neg (by simpa [List.isEmpty_iff] using hne)]
  · intro b js he
    unfold bagNext
    rw [if_pos (by simp [List.isEmpty_iff, he])]

/-- A degenerate randomness oracle (always draws index 0), used to witness
the fairness theorem at a concrete input. -/
def constZero : Nat → Nat := fun _ => 0

/-- Per-call randomness oracle that always draws index 0. -/
def constZero2 : Nat → Nat → Nat := fun _ _ => 0

/-- C4 witness: the fairness theorem applied to the all-zero randomness
oracle. -/
theorem bag_seven_fair_witness :
    ((bagDrawN constZero2 7 (bagReset constZero constZero)).1).Perm pieces7 :=
  (bag_seven_fair constZero constZero constZero2 (fun k => Nat.zero_le k)).1

/-- C8: peek returns exactly the piece type that an immediately following
next() call returns, for every bag state including an empty head queue;
peek is a pure function of the bag, so it leaves both queues unchanged by
construction. -/
theorem peek_agrees_with_next (b : Bag) (js : Nat → Nat) :
    bagPeek b = (bagNext b js).1 := by
  unfold bagPeek bagNext
  by_cases h : b.bag.isEmpty <;> simp [h]

/-- Every precomputed shape matrix has at least one filled cell. -/
theorem shapeAt_hasFilled (t : PieceType) (r : Nat) :
    (shapeAt t r).any (fun row => row.any (fun c => c != 0)) = true := by
  have hsplit : r % 4 = 0 ∨ r % 4 = 1 ∨ r % 4 = 2 ∨ r % 4 = 3 := by omega
  show ((shapesOf t).getD (r % 4) []).any _ = true
  rcases hsplit with h | h | h | h <;> rw [h] <;> cases t <;> decide

/-- An accepted placement pins the piece origin above the floor, because
some filled shape cell must satisfy the floor bound. -/
theorem valid_y_lt (b : Board) (t : PieceType) (x y : Int) (rot : Nat)
    (h : isValidPosition b t x y rot = true) : y < (ROWS : Int) := by
  have hchar := (isValidPos_char b t x y rot).mp h
  have hf := shapeAt_hasFilled t rot
  rw [List.any_eq_true] at hf
  obtain ⟨rowL, hrowmem, hcol⟩ := hf
  rw [List.any_eq_true] at hcol
  obtain ⟨c, hcmem, hc⟩ := hcol
  obtain ⟨ri, hri, hrieq⟩ := List.mem_iff_getElem.mp hrowmem
  obtain ⟨ci, hci, hcieq⟩ := List.mem_iff_getElem.mp hcmem
  have hrowD : (shapeAt t rot).getD ri [] = rowL := by
    rw [List.getD_eq_getElem _ _ hri, hrieq]
  have hcolb : ci < ((shapeAt t rot).getD ri []).length := by
    rw [hrowD]; exact hci
  have hfillD : ((shapeAt t rot).getD ri []).getD ci 0 ≠ 0 := by
    rw [hrowD, List.getD_eq_getElem _ _ hci, hcieq]
    simpa using hc
  have h3 := (hchar ri ci hri hcolb hfillD).2.2.1
  have hR : (ROWS : Int) = 20 := rfl
  rw [hR] at h3 ⊢
  omega

/-- A successful downward move puts the piece exactly one row lower and
keeps its origin above the floor. -/
theorem move_down_success (b : Board) (p : ActivePiece)
    (h : (movePiece b p 0 1).2 = true) :
    (movePiece b p 0 1).1.y = p.y + 1 ∧ (movePiece b p 0 1).1.y < (ROWS : Int) := by
  unfold movePiece at h ⊢
  by_cases hv : isValidPosition b p.type (p.x + 0) (p.y + 1) p.rotation = true
  · rw [if_pos hv]
    exact ⟨rfl, valid_y_lt b p.type (p.x + 0) (p.y + 1) p.rotation hv⟩
  · rw [if_neg hv] at h
    simp at h

/-- The hard-drop loop of `hardDrop()`: repeat `movePiece(0, 1)` until it
fails, counting the successful steps. -/
def hardDropLoop (b : Board) (p : ActivePiece) : ActivePiece × Nat :=
  if h : (movePiece b p 0 1).2 = true then
    let r := hardDropLoop b (movePiece b p 0 1).1
    (r.1, r.2 + 1)
  else
    (p, 0)
termination_by ((ROWS : Int) - p.y).toNat
decreasing_by
  obtain ⟨h1, h2⟩ := move_down_success b p h
  simp only [ROWS] at h1 h2 ⊢
  omega

/-- Source `SCORE_TABLE` lookup with the `|| 0` fallback applied: counts
1..4 map to their base points, every other count to 0. -/
def scoreTableD (n : Nat) : Nat :=
  if n = 1 then 100
  else if n = 2 then 300
  else if n = 3 then 500
  else if n = 4 then 800
  else 0

/-- Source constant `BASE_SPEED = 1000` (milliseconds per drop). -/
def BASE_SPEED : Int := 1000

/-- Source constant `SPEED_DECREASE_PER_LEVEL = 75`. -/
def SPEED_DECREASE_PER_LEVEL : Int := 75

/-- Source constant `MIN_SPEED = 100`. -/
def MIN_SPEED : Int := 100

/-- The session slice the scoring and clearing claims concern (the canvas,
timer, particle and settings fields of the source class are presentation
state outside this model; `current` is `this.currentPiece`). -/
structure GameState where
  board : Board
  current : Option ActivePiece
  score : Nat
  lines : Nat
  level : Nat
  dropInterval : Int
deriving Repr

/-- One row is full when every cell is non-null (source:
`row.every(cell => cell !== null)`). -/
def isFullRow (r : List (Option String)) : Bool :=
  r.all (fun c => c.isSome)

/-- The rows collected by `clearLines()`, scanning row indices from
ROWS-1 down to 0 (so the list is in decreasing order). -/
def linesToClear (b : Board) : List Nat :=
  ((List.range ROWS).reverse).filter (fun r => isFullRow (b.getD r []))

/-- A fresh empty row (source: `Array(COLS).fill(null)`). -/
def emptyRow : List (Option String) :=
  List.replicate COLS none

/-- One iteration of the clearing loop: `board.splice(row, 1)` followed by
`board.unshift(emptyRow)`. -/
def clearStep (b : Board) (r : Nat) : Board :=
  emptyRow :: b.eraseIdx r

/-- Source `TetrisGame.clearLines()`: collect full rows bottom-up, add the
table score and the line count, run the splice/unshift loop over the
collected indices, then recompute the level and (on a level-up) the drop
interval.  Particle and sound effects are presentation-only. -/
def clearLinesG (s : GameState) : GameState :=
  let ltc := linesToClear s.board
  if ltc.isEmpty then s
  else
    let score2 := s.score + scoreTableD ltc.length * s.level
    let lines2 := s.lines + ltc.length
    let board2 := ltc.foldl clearStep s.board
    let newLevel := lines2 / 10 + 1
    if s.level < newLevel then
      { board := board2, current := s.current, score := score2, lines := lines2,
        level := newLevel,
        dropInterval :=
          max MIN_SPEED (BASE_SPEED - ((newLevel : Int) - 1) * SPEED_DECREASE_PER_LEVEL) }
    else
      { board := board2, current := s.current, score := score2, lines := lines2,
        level := s.level, dropInterval := s.dropInterval }

/-- Write one cell: `board[y][x] = c` at indices already checked in
range. -/
def setCell (b : Board) (y x : Nat) (c : Option String) : Board :=
  b.set y ((b.getD y []).set x c)

/-- The board writes of `lockPiece()`: every filled shape cell whose board
position lies inside the grid receives the piece color; positions outside
are silently skipped. -/
def lockBoard (b : Board) (p : ActivePiece) : Board :=
  (List.range (shapeAt p.type p.rotation).length).foldl (fun acc row =>
    (List.range ((shapeAt p.type p.rotation).getD row []).length).foldl (fun acc2 col =>
      if ((shapeAt p.type p.rotation).getD row []).getD col 0 ≠ 0 then
        if 0 ≤ p.y + (row : Int) ∧ p.y + (row : Int) < (ROWS : Int) ∧
            0 ≤ p.x + (col : Int) ∧ p.x + (col : Int) < (COLS : Int) then
          setCell acc2 (p.y + (row : Int)).toNat (p.x + (col : Int)).toNat
            (some (colorOf p.type))
        else acc2
      else acc2) acc) b

/-- Source `lockPiece()` without the subsequent spawn (spawning draws from
the bag, which is modelled separately): write the piece cells, consume the
active piece, then clear lines. -/
def lockPieceG (s : GameState) : GameState :=
  match s.current with
  | none => s
  | some p =>
      clearLinesG
        { board := lockBoard s.board p, current := none, score := s.score,
          lines := s.lines, level := s.level, dropInterval := s.dropInterval }

/-- Source `softDrop()`: one `movePiece(0, 1)`; a successful cell adds one
point. -/
def softDropG (s : GameState) : GameState :=
  match s.current with
  | none => s
  | some p =>
      let r := movePiece s.board p 0 1
      { s with current := some r.1,
               score := if r.2 then s.score + 1 else s.score }

/-- Source `hardDrop()`: run the drop loop, add two points per successful
cell, then lock the piece (which clears lines). -/
def hardDropG (s : GameState) : GameState :=
  match s.current with
  | none => s
  | some p =>
      let r := hardDropLoop s.board p
      lockPieceG { s with current := some r.1, score := s.score + 2 * r.2 }

/-- Well-formed board: exactly ROWS rows of exactly COLS cells. -/
def boardWF (b : Board) : Prop :=
  b.length = ROWS ∧ ∀ r ∈ b, r.length = COLS

/-- Line clearing always adds exactly the table score for the number of
collected full rows, multiplied by the level (zero rows clear adds
nothing, matching the early return). -/
theorem clearLines_score (s : GameState) :
    (clearLinesG s).score = s.score + scoreTableD (linesToClear s.board).length * s.level := by
  simp only [clearLinesG]
  split_ifs with h1 h2
  · rw [List.isEmpty_iff.mp h1]
    simp [scoreTableD]
  · rfl
  · rfl

/-- Level recomputation of `clearLines()`: with the invariant holding
before, the level after equals floor(lines/10)+1, and on an increase the
drop interval is the clamped linear decay (helper). -/
theorem clearLines_level_inv (s : GameState) (h : s.level = s.lines / 10 + 1) :
    (clearLinesG s).level = (clearLinesG s).lines / 10 + 1 ∧
    (s.level < (clearLinesG s).level →
      (clearLinesG s).dropInterval =
        max MIN_SPEED
          (BASE_SPEED - (((clearLinesG s).level : Int) - 1) * SPEED_DECREASE_PER_LEVEL) ∧
      MIN_SPEED ≤ (clearLinesG s).dropInterval) := by
  simp only [clearLinesG]
  split_ifs with h1 h2
  · exact ⟨h, fun hlt => absurd hlt (lt_irrefl _)⟩
  · exact ⟨rfl, fun _ => ⟨rfl, le_max_left _ _⟩⟩
  · dsimp only
    constructor
    · have hmono : s.lines / 10 ≤ (s.lines + (linesToClear s.board).length) / 10 :=
        Nat.div_le_div_right (Nat.le_add_right _ _)
      simp only [Nat.not_lt] at h2
      omega
    · intro hlt
      exact absurd hlt (lt_irrefl _)

/-- Soft drop score effect (helper): one point exactly when the downward
move succeeded. -/
theorem softDrop_score (s : GameState) (p : ActivePiece) (hp : s.current = some p) :
    (softDropG s).score = if (movePiece s.board p 0 1).2 then s.score + 1 else s.score := by
  simp only [softDropG, hp]

/-- Hard drop score effect (helper): two points per successful loop step,
then the line-clear score of the board locked at the dropped position. -/
theorem hardDrop_score (s : GameState) (p : ActivePiece) (hp : s.current = some p) :
    (hardDropG s).score =
      s.score + 2 * (hardDropLoop s.board p).2 +
        scoreTableD (linesToClear (lockBoard s.board (hardDropLoop s.board p).1)).length
          * s.level := by
  simp only [hardDropG, hp, lockPieceG]
  rw [clearLines_score]

/-- C5: clearing n lines simultaneously at level L adds exactly
table(n) * L to the score, where the table maps 1 to 100, 2 to 300, 3 to
500, 4 to 800 and every n > 4 to 0; each successful soft-drop cell adds
exactly 1 point and each successful hard-drop cell adds exactly 2 points
(in particular table(4) at level 3 is 2400). -/
theorem scoring_rules :
    (scoreTableD 1 = 100 ∧ scoreTableD 2 = 300 ∧ scoreTableD 3 = 500 ∧
      scoreTableD 4 = 800 ∧ ∀ n, 4 < n → scoreTableD n = 0) ∧
    (∀ s : GameState,
      (clearLinesG s).score = s.score + scoreTableD (linesToClear s.board).length * s.level) ∧
    (∀ (s : GameState) (p : ActivePiece), s.current = some p →
      (softDropG s).score =
        if (movePiece s.board p 0 1).2 then s.score + 1 else s.score) ∧
    (∀ (s : GameState) (p : ActivePiece), s.current = some p →
      (hardDropG s).score =
        s.score + 2 * (hardDropLoop s.board p).2 +
          scoreTableD (linesToClear (lockBoard s.board (hardDropLoop s.board p).1)).length
            * s.level) ∧
    scoreTableD 4 * 3 = 2400 := by
  refine ⟨⟨rfl, rfl, rfl, rfl, ?_⟩, clearLines_score, softDrop_score, hardDrop_score, rfl⟩
  intro n hn
  simp only [scoreTableD]
  split_ifs <;> omega

/-- C6: after every line clear the level equals floor(lines/10)+1 (given
the invariant held before the clear, as it does from the initial state),
and whenever the level increases the drop interval is recomputed as
max(minSpeed, baseSpeed - (level-1)*speedStep), hence never falls below
the minimum speed floor. -/
theorem level_progression (s : GameState) (h : s.level = s.lines / 10 + 1) :
    (clearLinesG s).level = (clearLinesG s).lines / 10 + 1 ∧
    (s.level < (clearLinesG s).level →
      (clearLinesG s).dropInterval =
        max MIN_SPEED
          (BASE_SPEED - (((clearLinesG s).level : Int) - 1) * SPEED_DECREASE_PER_LEVEL) ∧
      MIN_SPEED ≤ (clearLinesG s).dropInterval) :=
  clearLines_level_inv s h

/-- A fully occupied row (concrete test data). -/
def fullRowF : List (Option String) :=
  List.replicate COLS (some "#FFF")

/-- A marker row with exactly one occupied cell (concrete test data). -/
def rowMarkX : List (Option String) :=
  some "#X" :: List.replicate 9 none

/-- A second marker row with exactly one occupied cell (concrete test
data). -/
def rowMarkY : List (Option String) :=
  some "#Y" :: List.replicate 9 none

/-- A board whose rows 17, 18 and 19 are fully occupied, with marker rows
at 15 and 16 and empty rows above. -/
def bugBoard : Board :=
  List.replicate 15 emptyRow ++ [rowMarkX, rowMarkY, fullRowF, fullRowF, fullRowF]

/-- A session holding `bugBoard` just before its line clear. -/
def bugState : GameState :=
  ⟨bugBoard, none, 0, 0, 1, 1000⟩

/-- A board with a single full bottom row, used at 9 previously cleared
lines so clearing it crosses a level boundary. -/
def levelUpState : GameState :=
  ⟨List.replicate 19 emptyRow ++ [fullRowF], none, 0, 9, 1, 1000⟩

/-- C6 witness: the level theorem applied to a concrete clear that crosses
the 10-line boundary. -/
theorem level_progression_witness :
    (clearLinesG levelUpState).dropInterval =
      max MIN_SPEED
        (BASE_SPEED - (((clearLinesG levelUpState).level : Int) - 1) * SPEED_DECREASE_PER_LEVEL) ∧
    MIN_SPEED ≤ (clearLinesG levelUpState).dropInterval :=
  (level_progression levelUpState (by decide)).2 (by decide)

/-- C1: the clearing loop iterates the collected row indices in the
decreasing order they were gathered in, but each `splice`/`unshift` pair
shifts the remaining rows down by one, so later iterations remove the
wrong rows.  On a board whose rows 17, 18, 19 are fully occupied, the
loop removes original rows 19, 17 and 15 (row 15 is not full), leaves the
fully occupied original row 18 at the bottom, and loses the marker row
that should have survived at index 18. -/
theorem clearLines_removes_wrong_rows :
    linesToClear bugBoard = [19, 18, 17] ∧
    (clearLinesG bugState).board = List.replicate 18 emptyRow ++ [rowMarkY, fullRowF] ∧
    isFullRow ((clearLinesG bugState).board.getD 19 []) = true ∧
    (clearLinesG bugState).board ≠ List.replicate 18 emptyRow ++ [rowMarkX, rowMarkY] := by
  refine ⟨by decide, by decide, by decide, by decide⟩

/-- Writing one guarded cell preserves the board dimensions. -/
theorem setCell_wf (b : Board) (y x : Nat) (c : Option String) (h : boardWF b) :
    boardWF (setCell b y x c) := by
  obtain ⟨hlen, hrows⟩ := h
  constructor
  · rw [setCell, List.length_set]
    exact hlen
  · intro r hr
    rw [setCell] at hr
    obtain ⟨i, hi, heq⟩ := List.mem_iff_getElem.mp hr
    rw [List.getElem_set] at heq
    by_cases hyi : y = i
    · rw [if_pos hyi] at heq
      have hyb : y < b.length := by
        rw [hyi]
        simpa using hi
      rw [← heq, List.length_set, List.getD_eq_getElem _ _ hyb]
      exact hrows _ (List.getElem_mem hyb)
    · rw [if_neg hyi] at heq
      rw [← heq]
      exact hrows _ (List.getElem_mem (by simpa using hi))

/-- Folding a dimension-preserving step over any list preserves the board
dimensions. -/
theorem foldl_preserves {χ : Type} (P : Board → Prop) (f : Board → χ → Board)
    (l : List χ) (hf : ∀ bb x, x ∈ l → P bb → P (f bb x)) :
    ∀ bb, P bb → P (l.foldl f bb) := by
  induction l with
  | nil => intro bb hb; exact hb
  | cons a as ih =>
    intro bb hb
    exact ih (fun bb2 x hx hb2 => hf bb2 x (List.mem_cons_of_mem a hx) hb2)
      (f bb a) (hf bb a (List.mem_cons_self a as) hb)

/-- Locking writes only to cells already inside the grid, so it preserves
the board dimensions. -/
theorem lockBoard_wf (b : Board) (p : ActivePiece) (h : boardWF b) :
    boardWF (lockBoard b p) := by
  unfold lockBoard
  refine foldl_preserves boardWF _ _ ?_ b h
  intro bb row _ hbb
  refine foldl_preserves boardWF _ _ ?_ bb hbb
  intro bb2 col _ hbb2
  split_ifs with h1 h2
  · exact setCell_wf _ _ _ _ hbb2
  · exact hbb2
  · exact hbb2

/-- One splice/unshift pair at an in-range index preserves the board
dimensions. -/
theorem clearStep_wf (b : Board) (r : Nat) (hr : r < ROWS) (h : boardWF b) :
    boardWF (clearStep b r) := by
  obtain ⟨hlen, hrows⟩ := h
  constructor
  · rw [clearStep, List.length_cons, List.length_eraseIdx]
    rw [hlen]
    rw [if_pos hr]
    simp [ROWS]
  · intro row hrow
    rw [clearStep, List.mem_cons] at hrow
    rcases hrow with he | hm
    · rw [he]
      simp [emptyRow]
    · exact hrows row ((List.eraseIdx_sublist b r).subset hm)

/-- Clearing lines preserves the board dimensions: each collected index is
below ROWS, and each loop iteration removes one row and prepends one
fresh row. -/
theorem clearLines_board_wf (s : GameState) (h : boardWF s.board) :
    boardWF (clearLinesG s).board := by
  simp only [clearLinesG]
  split_ifs with h1 h2
  · exact h
  all_goals {
    refine foldl_preserves boardWF clearStep (linesToClear s.board) ?_ s.board h
    intro bb r hr hbb
    refine clearStep_wf bb r ?_ hbb
    have hmem : r ∈ List.range ROWS := by
      have hf := (List.mem_filter.mp hr).1
      rwa [List.mem_reverse] at hf
    exact List.mem_range.mp hmem }

/-- C10: the board always remains exactly 20 rows by 10 columns: it is
created with those dimensions, locking writes only to cells already
inside the grid, and each loop iteration of the line clear replaces one
removed row by exactly one fresh empty row at the top. -/
theorem board_dimensions_invariant :
    boardWF createEmptyBoard ∧
    (∀ (b : Board) (p : ActivePiece), boardWF b → boardWF (lockBoard b p)) ∧
    (∀ s : GameState, boardWF s.board → boardWF (clearLinesG s).board) := by
  refine ⟨⟨by simp [createEmptyBoard], ?_⟩, lockBoard_wf, clearLines_board_wf⟩
  intro r hr
  rw [List.eq_of_mem_replicate hr]
  simp
